import Mathlib

/-!
Shallow embedding of `binary_search` from
`src/agentflow-cli/examples/assets/agentflow_demo_output/binary_search.py`.

Elements and targets are modelled as `Int` (the example uses integers and the
algorithm only needs a linear order).  Python's sequence indexing `arr[i]` is
modelled by `pyGet`: a negative index wraps around once (`arr[-1]` is the last
element) and an out-of-range access raises `IndexError`, modelled as `none`.
The search loop becomes the recursive function `binarySearchGo` on the closed
interval `[left, right]` of `Int` bounds, and `binary_search` starts it at
`[0, len(arr) - 1]` exactly as the source does.
-/

/-- Python indexing `arr[i]` on a list: a negative `i` is first shifted by
`len(arr)`; the access succeeds iff the shifted index lies in `[0, len)`,
otherwise Python raises `IndexError`, modelled as `none`. -/
def pyGet (arr : List Int) (i : Int) : Option Int :=
  let j := if i < 0 then (arr.length : Int) + i else i
  if 0 ≤ j ∧ j < (arr.length : Int) then arr.get? j.toNat else none

/-- Strict indexing used for the access-safety analysis: succeeds only when
the raw index already lies in `[0, len)`; in particular it refuses the
negative indices that `pyGet` would wrap around. -/
def strictGet (arr : List Int) (i : Int) : Option Int :=
  if 0 ≤ i ∧ i < (arr.length : Int) then arr.get? i.toNat else none

/-- The `while left <= right` loop of `binary_search`, with Python indexing.
`none` models an uncaught `IndexError`; `some r` is a normal return. -/
def binarySearchGo (arr : List Int) (target : Int) (left right : Int) :
    Option Int :=
  if left ≤ right then
    let mid := left + (right - left) / 2
    match pyGet arr mid with
    | none => none
    | some v =>
      if v = target then some mid
      else if v < target then binarySearchGo arr target (mid + 1) right
      else binarySearchGo arr target left (mid - 1)
  else some (-1)
termination_by (right + 1 - left).toNat
decreasing_by
  all_goals
    have h0 : (0 : Int) ≤ right - left := by omega
    have h1 : (0 : Int) ≤ (right - left) / 2 := Int.ediv_nonneg h0 (by norm_num)
    have h2 : (right - left) / 2 ≤ right - left := Int.ediv_le_self 2 h0
    omega

/-- `binary_search(arr, target)`: closed-interval bisection starting from
`left = 0`, `right = len(arr) - 1`. -/
def binary_search (arr : List Int) (target : Int) : Option Int :=
  binarySearchGo arr target 0 ((arr.length : Int) - 1)

/-- The same loop with `strictGet` in place of `pyGet`: it fails on any index
access outside `[0, len)`, wrapped or not.  Agreement with `binarySearchGo`
shows every access the source performs is already in range. -/
def binarySearchGoStrict (arr : List Int) (target : Int) (left right : Int) :
    Option Int :=
  if left ≤ right then
    let mid := left + (right - left) / 2
    match strictGet arr mid with
    | none => none
    | some v =>
      if v = target then some mid
      else if v < target then binarySearchGoStrict arr target (mid + 1) right
      else binarySearchGoStrict arr target left (mid - 1)
  else some (-1)
termination_by (right + 1 - left).toNat
decreasing_by
  all_goals
    have h0 : (0 : Int) ≤ right - left := by omega
    have h1 : (0 : Int) ≤ (right - left) / 2 := Int.ediv_nonneg h0 (by norm_num)
    have h2 : (right - left) / 2 ≤ right - left := Int.ediv_le_self 2 h0
    omega

/-- `binary_search` with strict index checking throughout. -/
def binary_searchStrict (arr : List Int) (target : Int) : Option Int :=
  binarySearchGoStrict arr target 0 ((arr.length : Int) - 1)

/-- State-threaded embedding of the loop: the sequence is treated as a mutable
store passed into every step and returned alongside the result.  The source
contains no write to `arr`, so each step hands the store on unchanged. -/
def binarySearchGoSt (target : Int) (left right : Int) (arr : List Int) :
    Option Int × List Int :=
  if left ≤ right then
    let mid := left + (right - left) / 2
    match pyGet arr mid with
    | none => (none, arr)
    | some v =>
      if v = target then (some mid, arr)
      else if v < target then binarySearchGoSt target (mid + 1) right arr
      else binarySearchGoSt target left (mid - 1) arr
  else (some (-1), arr)
termination_by (right + 1 - left).toNat
decreasing_by
  all_goals
    have h0 : (0 : Int) ≤ right - left := by omega
    have h1 : (0 : Int) ≤ (right - left) / 2 := Int.ediv_nonneg h0 (by norm_num)
    have h2 : (right - left) / 2 ≤ right - left := Int.ediv_le_self 2 h0
    omega

/-- State-threaded `binary_search`: result together with the final store. -/
def binary_searchSt (arr : List Int) (target : Int) : Option Int × List Int :=
  binarySearchGoSt target 0 ((arr.length : Int) - 1) arr

/-- On an interval with `0 ≤ left` and `right < len`, the loop (in all three
embeddings) terminates normally: it returns the same `some r` with the store
untouched, and `r` is either the sentinel `-1` or an index of the interval
whose element equals the target.  No sortedness is assumed. -/
theorem binarySearchGo_spec (arr : List Int) (target : Int) :
    ∀ (n : Nat) (left right : Int), (right + 1 - left).toNat ≤ n →
      0 ≤ left → right < (arr.length : Int) →
      ∃ r, binarySearchGo arr target left right = some r ∧
        binarySearchGoStrict arr target left right = some r ∧
        binarySearchGoSt target left right arr = (some r, arr) ∧
        (r = -1 ∨ (left ≤ r ∧ r ≤ right ∧ arr.get? r.toNat = some target)) := by
  intro n
  induction n with
  | zero =>
      intro left right hn h0 h1
      have hlr : ¬ left ≤ right := by omega
      refine ⟨-1, ?_, ?_, ?_, Or.inl rfl⟩
      · rw [binarySearchGo.eq_def]; simp [hlr]
      · rw [binarySearchGoStrict.eq_def]; simp [hlr]
      · rw [binarySearchGoSt.eq_def]; simp [hlr]
  | succ n ih =>
      intro left right hn h0 h1
      by_cases hlr : left ≤ right
      · have hd0 : (0 : Int) ≤ right - left := by omega
        have hq0 : (0 : Int) ≤ (right - left) / 2 := Int.ediv_nonneg hd0 (by norm_num)
        have hq1 : (right - left) / 2 ≤ right - left := Int.ediv_le_self 2 hd0
        have hmid1 : left ≤ left + (right - left) / 2 := by omega
        have hmid2 : left + (right - left) / 2 ≤ right := by omega
        have hmid0 : 0 ≤ left + (right - left) / 2 := by omega
        have hmidlen : left + (right - left) / 2 < (arr.length : Int) := by omega
        have hnat : (left + (right - left) / 2).toNat < arr.length := by omega
        have hpy : pyGet arr (left + (right - left) / 2) =
            some (arr.get ⟨(left + (right - left) / 2).toNat, hnat⟩) := by
          simp only [pyGet]
          rw [if_neg (show ¬ left + (right - left) / 2 < 0 by omega)]
          rw [if_pos ⟨hmid0, hmidlen⟩]
          exact List.get?_eq_get hnat
        have hst : strictGet arr (left + (right - left) / 2) =
            some (arr.get ⟨(left + (right - left) / 2).toNat, hnat⟩) := by
          simp only [strictGet]
          rw [if_pos ⟨hmid0, hmidlen⟩]
          exact List.get?_eq_get hnat
        set v := arr.get ⟨(left + (right - left) / 2).toNat, hnat⟩ with hv
        by_cases he : v = target
        · refine ⟨left + (right - left) / 2, ?_, ?_, ?_,
            Or.inr ⟨hmid1, hmid2, ?_⟩⟩
          · rw [binarySearchGo.eq_def]; simp only [if_pos hlr, hpy]
            simp [he]
          · rw [binarySearchGoStrict.eq_def]; simp only [if_pos hlr, hst]
            simp [he]
          · rw [binarySearchGoSt.eq_def]; simp only [if_pos hlr, hpy]
            simp [he]
          · rw [List.get?_eq_get hnat, ← hv, he]
        · by_cases hlt : v < target
          · obtain ⟨r, e1, e2, e3, hdisj⟩ :=
              ih (left + (right - left) / 2 + 1) right (by omega) (by omega) h1
            refine ⟨r, ?_, ?_, ?_, ?_⟩
            · rw [binarySearchGo.eq_def]; simp only [if_pos hlr, hpy]
              simp [he, hlt, e1]
            · rw [binarySearchGoStrict.eq_def]; simp only [if_pos hlr, hst]
              simp [he, hlt, e2]
            · rw [binarySearchGoSt.eq_def]; simp only [if_pos hlr, hpy]
              simp [he, hlt, e3]
            · rcases hdisj with h | ⟨hr1, hr2, hr3⟩
              · exact Or.inl h
              · exact Or.inr ⟨by omega, hr2, hr3⟩
          · obtain ⟨r, e1, e2, e3, hdisj⟩ :=
              ih left (left + (right - left) / 2 - 1) (by omega) h0 (by omega)
            refine ⟨r, ?_, ?_, ?_, ?_⟩
            · rw [binarySearchGo.eq_def]; simp only [if_pos hlr, hpy]
              simp [he, hlt, e1]
            · rw [binarySearchGoStrict.eq_def]; simp only [if_pos hlr, hst]
              simp [he, hlt, e2]
            · rw [binarySearchGoSt.eq_def]; simp only [if_pos hlr, hpy]
              simp [he, hlt, e3]
            · rcases hdisj with h | ⟨hr1, hr2, hr3⟩
              · exact Or.inl h
              · exact Or.inr ⟨hr1, by omega, hr3⟩
      · refine ⟨-1, ?_, ?_, ?_, Or.inl rfl⟩
        · rw [binarySearchGo.eq_def]; simp [hlr]
        · rw [binarySearchGoStrict.eq_def]; simp [hlr]
        · rw [binarySearchGoSt.eq_def]; simp [hlr]

/-- In an ascending (non-decreasing) list, elements are monotone in the
index. -/
theorem sorted_get_mono {arr : List Int} (hs : List.Sorted (· ≤ ·) arr)
    {i j : Fin arr.length} (h : i ≤ j) : arr.get i ≤ arr.get j := by
  rcases lt_or_eq_of_le h with h' | h'
  · exact hs.rel_get_of_lt h'
  · rw [h']

/-- If the target occurs at some index inside the current interval of a
sorted list, the loop does not return the sentinel. -/
theorem binarySearchGo_finds (arr : List Int) (target : Int)
    (hs : List.Sorted (· ≤ ·) arr) :
    ∀ (n : Nat) (left right : Int), (right + 1 - left).toNat ≤ n →
      0 ≤ left → right < (arr.length : Int) →
      (∃ j : Fin arr.length, left ≤ (j : Int) ∧ (j : Int) ≤ right ∧
        arr.get j = target) →
      binarySearchGo arr target left right ≠ some (-1) := by
  intro n
  induction n with
  | zero =>
      intro left right hn h0 h1 ⟨j, hj1, hj2, hj3⟩
      omega
  | succ n ih =>
      intro left right hn h0 h1 ⟨j, hj1, hj2, hj3⟩
      have hlr : left ≤ right := by omega
      have hd0 : (0 : Int) ≤ right - left := by omega
      have hq0 : (0 : Int) ≤ (right - left) / 2 := Int.ediv_nonneg hd0 (by norm_num)
      have hq1 : (right - left) / 2 ≤ right - left := Int.ediv_le_self 2 hd0
      have hmid1 : left ≤ left + (right - left) / 2 := by omega
      have hmid2 : left + (right - left) / 2 ≤ right := by omega
      have hmid0 : 0 ≤ left + (right - left) / 2 := by omega
      have hmidlen : left + (right - left) / 2 < (arr.length : Int) := by omega
      have hnat : (left + (right - left) / 2).toNat < arr.length := by omega
      have hpy : pyGet arr (left + (right - left) / 2) =
          some (arr.get ⟨(left + (right - left) / 2).toNat, hnat⟩) := by
        simp only [pyGet]
        rw [if_neg (show ¬ left + (right - left) / 2 < 0 by omega)]
        rw [if_pos ⟨hmid0, hmidlen⟩]
        exact List.get?_eq_get hnat
      set v := arr.get ⟨(left + (right - left) / 2).toNat, hnat⟩ with hv
      by_cases he : v = target
      · rw [binarySearchGo.eq_def]; simp only [if_pos hlr, hpy]
        simp only [he, if_pos rfl, if_true]
        intro hcontra
        have := Option.some.inj hcontra
        omega
      · by_cases hlt : v < target
        · have hjgt : left + (right - left) / 2 + 1 ≤ (j : Int) := by
            by_contra hcon
            have hjle : (j : Fin arr.length) ≤
                ⟨(left + (right - left) / 2).toNat, hnat⟩ := by
              simp only [Fin.le_def]
              omega
            have := sorted_get_mono hs hjle
            rw [hj3, ← hv] at this
            omega
          have := ih (left + (right - left) / 2 + 1) right (by omega)
            (by omega) h1 ⟨j, hjgt, hj2, hj3⟩
          rw [binarySearchGo.eq_def]; simp only [if_pos hlr, hpy]
          simpa [he, hlt] using this
        · have hjlt : (j : Int) ≤ left + (right - left) / 2 - 1 := by
            by_contra hcon
            have hjge : (⟨(left + (right - left) / 2).toNat, hnat⟩ :
                Fin arr.length) ≤ j := by
              simp only [Fin.le_def]
              omega
            have := sorted_get_mono hs hjge
            rw [hj3, ← hv] at this
            omega
          have := ih left (left + (right - left) / 2 - 1) (by omega)
            h0 (by omega) ⟨j, hj1, hjlt, hj3⟩
          rw [binarySearchGo.eq_def]; simp only [if_pos hlr, hpy]
          simpa [he, hlt] using this

/-- Top-level specification of `binary_search`: the three embeddings agree on
a normal return `some r`, the store is unchanged, and `r` is the sentinel or
an in-range index holding the target.  No sortedness is assumed. -/
theorem binary_search_spec (arr : List Int) (target : Int) :
    ∃ r, binary_search arr target = some r ∧
      binary_searchStrict arr target = some r ∧
      binary_searchSt arr target = (some r, arr) ∧
      (r = -1 ∨ (0 ≤ r ∧ r < (arr.length : Int) ∧
        arr.get? r.toNat = some target)) := by
  obtain ⟨r, e1, e2, e3, hd⟩ := binarySearchGo_spec arr target arr.length
    0 ((arr.length : Int) - 1) (by omega) (by omega) (by omega)
  refine ⟨r, e1, e2, e3, ?_⟩
  rcases hd with h | ⟨h1, h2, h3⟩
  · exact Or.inl h
  · exact Or.inr ⟨h1, by omega, h3⟩

/-- If the target occurs in a sorted list, the result is not the sentinel. -/
theorem binary_search_mem_ne_sentinel (arr : List Int) (target : Int)
    (hs : List.Sorted (· ≤ ·) arr) (hmem : target ∈ arr) :
    binary_search arr target ≠ some (-1) := by
  obtain ⟨j, hj⟩ := List.get_of_mem hmem
  have hjlt : (j : Nat) < arr.length := j.isLt
  exact binarySearchGo_finds arr target hs arr.length 0
    ((arr.length : Int) - 1) (by omega) (by omega) (by omega)
    ⟨j, by omega, by omega, hj⟩

/-- C1: for every ascending sequence `S` and every element `x` occurring in
`S`, `binary_search S x` returns an index `i` with `S[i] == x`. -/
theorem C1_search_finds (S : List Int) (x : Int)
    (hs : List.Sorted (· ≤ ·) S) (hx : x ∈ S) :
    ∃ i : Nat, binary_search S x = some (i : Int) ∧ S.get? i = some x := by
  obtain ⟨r, e1, _, _, hd⟩ := binary_search_spec S x
  rcases hd with h | ⟨h1, _, h3⟩
  · exact absurd (h ▸ e1) (binary_search_mem_ne_sentinel S x hs hx)
  · exact ⟨r.toNat, by rw [e1, Int.toNat_of_nonneg h1], h3⟩

theorem C1_search_finds_witness :
    List.Sorted (· ≤ ·) ([2, 3, 4, 10, 40] : List Int) ∧
    (10 : Int) ∈ ([2, 3, 4, 10, 40] : List Int) ∧
    ∃ i : Nat, binary_search [2, 3, 4, 10, 40] 10 = some (i : Int) ∧
      ([2, 3, 4, 10, 40] : List Int).get? i = some 10 :=
  ⟨by decide, by decide, C1_search_finds _ _ (by decide) (by decide)⟩

/-- C2: for every ascending sequence `S` and every value `y` not occurring in
`S`, `binary_search S y` returns the sentinel `-1`. -/
theorem C2_search_not_found (S : List Int) (y : Int)
    (_hs : List.Sorted (· ≤ ·) S) (hy : y ∉ S) :
    binary_search S y = some (-1) := by
  obtain ⟨r, e1, _, _, hd⟩ := binary_search_spec S y
  rcases hd with h | ⟨_, _, h3⟩
  · rw [e1, h]
  · exact absurd (List.get?_mem h3) hy

theorem C2_search_not_found_witness :
    List.Sorted (· ≤ ·) ([2, 3, 4, 10, 40] : List Int) ∧
    (5 : Int) ∉ ([2, 3, 4, 10, 40] : List Int) ∧
    binary_search [2, 3, 4, 10, 40] 5 = some (-1) :=
  ⟨by decide, by decide, C2_search_not_found _ _ (by decide) (by decide)⟩

/-- C3 (counterexample): `[5, 5, 5]` is ascending, the target `5` equals both
the first and the last element, yet `binary_search` returns index `1`, which
is neither `0` nor `length - 1 = 2`. -/
theorem C3_counterexample :
    List.Sorted (· ≤ ·) ([5, 5, 5] : List Int) ∧
    ([5, 5, 5] : List Int).get? 0 = some 5 ∧
    ([5, 5, 5] : List Int).get? (([5, 5, 5] : List Int).length - 1) = some 5 ∧
    binary_search [5, 5, 5] 5 ≠ some 0 ∧
    binary_search [5, 5, 5] 5 ≠
      some ((([5, 5, 5] : List Int).length : Int) - 1) := by
  have h : binary_search [5, 5, 5] 5 = some 1 := by
    simp [binary_search, binarySearchGo, pyGet]
  refine ⟨by decide, by decide, by decide, ?_, ?_⟩ <;> rw [h] <;> decide

/-- C3 (amended): for every non-empty STRICTLY ascending sequence `S` (no
duplicate elements), a target equal to the first element yields index `0` and
a target equal to the last element yields index `length - 1`. -/
theorem C3_first_last (S : List Int) (hs : List.Sorted (· < ·) S)
    (hne : S ≠ []) :
    (∀ x, S.get? 0 = some x → binary_search S x = some 0) ∧
    (∀ x, S.get? (S.length - 1) = some x →
      binary_search S x = some ((S.length : Int) - 1)) := by
  have hlen : 0 < S.length := List.length_pos.2 hne
  constructor
  · intro x hx
    obtain ⟨i, e1, e2⟩ := C1_search_finds S x hs.le_of_lt
      (List.get?_mem hx)
    have hilt : i < S.length := by
      by_contra hcon
      rw [List.get?_eq_none.2 (by omega)] at e2
      exact Option.noConfusion e2
    have hv0 : S.get ⟨0, hlen⟩ = x :=
      Option.some.inj ((List.get?_eq_get hlen).symm.trans hx)
    have hvi : S.get ⟨i, hilt⟩ = x :=
      Option.some.inj ((List.get?_eq_get hilt).symm.trans e2)
    have hi0 : i = 0 := by
      by_contra hcon
      have hlt : (⟨0, hlen⟩ : Fin S.length) < ⟨i, hilt⟩ := by
        simp only [Fin.lt_def]
        omega
      have hgt := hs.rel_get_of_lt hlt
      rw [hv0, hvi] at hgt
      exact lt_irrefl x hgt
    rw [e1, hi0]
    rfl
  · intro x hx
    obtain ⟨i, e1, e2⟩ := C1_search_finds S x hs.le_of_lt
      (List.get?_mem hx)
    have hilt : i < S.length := by
      by_contra hcon
      rw [List.get?_eq_none.2 (by omega)] at e2
      exact Option.noConfusion e2
    have hlast : S.length - 1 < S.length := by omega
    have hvl : S.get ⟨S.length - 1, hlast⟩ = x :=
      Option.some.inj ((List.get?_eq_get hlast).symm.trans hx)
    have hvi : S.get ⟨i, hilt⟩ = x :=
      Option.some.inj ((List.get?_eq_get hilt).symm.trans e2)
    have hi : i = S.length - 1 := by
      by_contra hcon
      have hlt : (⟨i, hilt⟩ : Fin S.length) < ⟨S.length - 1, hlast⟩ := by
        simp only [Fin.lt_def]
        omega
      have hgt := hs.rel_get_of_lt hlt
      rw [hvl, hvi] at hgt
      exact lt_irrefl x hgt
    rw [e1, hi]
    congr 1
    omega

theorem C3_first_last_witness :
    List.Sorted (· < ·) ([2, 3, 4, 10, 40] : List Int) ∧
    ([2, 3, 4, 10, 40] : List Int) ≠ [] ∧
    binary_search [2, 3, 4, 10, 40] 2 = some 0 ∧
    binary_search [2, 3, 4, 10, 40] 40 =
      some ((([2, 3, 4, 10, 40] : List Int).length : Int) - 1) :=
  ⟨by decide, by decide,
    (C3_first_last _ (by decide) (by decide)).1 2 (by decide),
    (C3_first_last _ (by decide) (by decide)).2 40 (by decide)⟩

/-- C4: on every ascending sequence and every target, `binary_search`
terminates with a normal return value (`some r`, never the `none` that models
a raised exception). -/
theorem C4_total (arr : List Int) (target : Int)
    (_hs : List.Sorted (· ≤ ·) arr) :
    ∃ r : Int, binary_search arr target = some r := by
  obtain ⟨r, e1, _, _, _⟩ := binary_search_spec arr target
  exact ⟨r, e1⟩

theorem C4_total_witness :
    List.Sorted (· ≤ ·) ([2, 3, 4, 10, 40] : List Int) ∧
    ∃ r : Int, binary_search [2, 3, 4, 10, 40] 7 = some r :=
  ⟨by decide, C4_total _ 7 (by decide)⟩

/-- C5: on the empty sequence every search returns the sentinel `-1`, and the
loop guard `left <= right` is already false at entry (`left = 0`,
`right = len([]) - 1 = -1`), so the loop body never runs. -/
theorem C5_empty (target : Int) :
    binary_search [] target = some (-1) ∧
    ¬ ((0 : Int) ≤ ((([] : List Int).length : Int) - 1)) := by
  constructor
  · rw [binary_search, binarySearchGo.eq_def]
    simp
  · simp

/-- C6: the four concrete scenarios from the spec. -/
theorem C6_concrete :
    binary_search [5] 5 = some 0 ∧
    binary_search [5] 3 = some (-1) ∧
    binary_search [2, 3, 4, 10, 40] 10 = some 3 ∧
    binary_search [2, 3, 4, 10, 40] 5 = some (-1) := by
  refine ⟨?_, ?_, ?_, ?_⟩ <;> simp [binary_search, binarySearchGo, pyGet]

/-- C7: on every input (sorted or not), the result is a normal return that is
either an index in `[0, length - 1]` or the distinguished value `-1`; the
exception outcome `none` never occurs. -/
theorem C7_two_outcomes (arr : List Int) (target : Int) :
    ∃ r : Int, binary_search arr target = some r ∧
      (r = -1 ∨ (0 ≤ r ∧ r ≤ (arr.length : Int) - 1)) := by
  obtain ⟨r, e1, _, _, hd⟩ := binary_search_spec arr target
  rcases hd with h | ⟨h1, h2, _⟩
  · exact ⟨r, e1, Or.inl h⟩
  · exact ⟨r, e1, Or.inr ⟨h1, by omega⟩⟩

/-- C8: with no sortedness assumption, `binary_search` terminates, agrees
with the strictly index-checked variant (hence every `arr[mid]` access it
performs has `0 ≤ mid < len(arr)`), and any non-negative result is an index
holding the target. -/
theorem C8_safety (arr : List Int) (target : Int) :
    ∃ r : Int, binary_search arr target = some r ∧
      binary_searchStrict arr target = some r ∧
      (0 ≤ r → arr.get? r.toNat = some target) := by
  obtain ⟨r, e1, e2, _, hd⟩ := binary_search_spec arr target
  rcases hd with h | ⟨_, _, h3⟩
  · exact ⟨r, e1, e2, fun hr => absurd (h ▸ hr) (by norm_num)⟩
  · exact ⟨r, e1, e2, fun _ => h3⟩

/-- C9: in the state-threaded embedding the sequence comes back unchanged
from every call, and the result coincides with the pure function's; the call
touches no state outside its own locals. -/
theorem C9_no_mutation (arr : List Int) (target : Int) :
    (binary_searchSt arr target).2 = arr ∧
    (binary_searchSt arr target).1 = binary_search arr target := by
  obtain ⟨r, e1, _, e3, _⟩ := binary_search_spec arr target
  rw [e3, e1]
  exact ⟨rfl, rfl⟩

/-- C10: two successive calls with the same target, the second running on the
store left behind by the first, return identical results and identical
stores: the function is deterministic and keeps no state across calls. -/
theorem C10_deterministic (arr : List Int) (target : Int) :
    (binary_searchSt (binary_searchSt arr target).2 target).1 =
      (binary_searchSt arr target).1 ∧
    (binary_searchSt (binary_searchSt arr target).2 target).2 =
      (binary_searchSt arr target).2 := by
  obtain ⟨r, _, _, e3, _⟩ := binary_search_spec arr target
  simp [e3]
